import Mathlib

/-!
Shallow embedding of the "picture-file-extension-fix" repository core:
content-based image-format detection (`src/utils/fileSignatures.ts`) and the
batch rename-and-archive pipeline (`startProcessing` in `src/App.tsx`).

Modelling conventions:
* JS strings are `List Char`; file byte contents are `List Nat` with each
  element a byte value `0 ≤ b < 256` (a `Uint8Array` element).
* The asynchronous `FileReader` read of a file's 12-byte slice is modelled as
  an `Option (List Nat)`: `none` models a read failure (the `onerror` handler
  or a null `e.target.result`), `some bytes` a successful read.
* `file.name` is the last `'/'`-separated segment of `file.webkitRelativePath`
  (browser guarantee), so the embedding computes it from the relative path.
* The only impure input of the pipeline is `Date.now()` (the summary's
  `startTime`); it is passed explicitly as a parameter `t`.
-/

namespace PicFix

/-- JS `String.prototype.split(sep)` restricted to a single-character
separator, on `List Char`: always returns a nonempty list of segments,
`"" → [""]`, and adjacent separators yield empty segments. -/
def splitOnChar (c : Char) : List Char → List (List Char)
  | [] => [[]]
  | a :: as =>
      let r := splitOnChar c as
      if a = c then [] :: r else (a :: r.headD []) :: r.tail

/-- JS `Array.prototype.join(sep)` restricted to a single-character separator:
interleaves `c` between the segments. -/
def joinChar (c : Char) : List (List Char) → List Char
  | [] => []
  | [x] => x
  | x :: y :: t => x ++ c :: joinChar c (y :: t)

/-- JS `String.prototype.lastIndexOf(c)`: the largest index holding `c`,
or `-1` when `c` does not occur. -/
def jsLastIndexOf (c : Char) : List Char → Int
  | [] => -1
  | a :: as =>
      let r := jsLastIndexOf c as
      if r ≥ 0 then r + 1 else if a = c then 0 else -1

/-- JS `String.prototype.substring(0, stop)`: a negative `stop` clamps to `0`,
a `stop` past the end clamps to the length. -/
def jsSubstring0 (s : List Char) (stop : Int) : List Char :=
  s.take stop.toNat

/-- JS `String.prototype.startsWith(pat)` on `List Char`. -/
def startsWithL : List Char → List Char → Bool
  | _, [] => true
  | [], _ :: _ => false
  | a :: as, b :: bs => a == b && startsWithL as bs

/-- One digit of JS `Number.prototype.toString(16).toUpperCase()`:
`0`–`9` then `A`–`F`. -/
def hexDigitChar (n : Nat) : Char :=
  if n < 10 then Char.ofNat (48 + n) else Char.ofNat (55 + n)

/-- JS `b.toString(16).toUpperCase()` for a byte value `b < 256` (a
`Uint8Array` element): NO zero padding, so bytes below `0x10` produce a
single hex digit. -/
def toHexUpper (b : Nat) : List Char :=
  if b < 16 then [hexDigitChar b] else [hexDigitChar (b / 16), hexDigitChar (b % 16)]

/-- The hex-string header building of `detectMimeType`
(`src/utils/fileSignatures.ts`): per-byte unpadded uppercase hex,
concatenated. Used for the 4-byte header, the RIFF tag and the WEBP tag. -/
def bytesToHex (bs : List Nat) : List Char :=
  (bs.map toHexUpper).flatten

/-- The TS union `'png' | 'jpg' | 'gif' | 'webp' | 'unknown'` returned by
`detectMimeType` (named `DetectedFormat` in the spec). -/
inductive DetectedFormat
  | png
  | jpg
  | gif
  | webp
  | unknown
  deriving DecidableEq, Inhabited, Repr

/-- The string value carried by each member of the TS union (used verbatim
when `App.tsx` builds `` `${nameWithoutExt}.${realType}` ``). -/
def formatExt : DetectedFormat → List Char
  | .png => "png".toList
  | .jpg => "jpg".toList
  | .gif => "gif".toList
  | .webp => "webp".toList
  | .unknown => "unknown".toList

/-- Embedding of `detectMimeType` (`src/utils/fileSignatures.ts`, lines 5–72).
The argument is the result of reading the file's first 12 bytes:
`none` models a `FileReader` failure or null result, resolved `'unknown'`.
The successful path builds the unpadded uppercase hex string of the first
4 bytes and tests `startsWith` against the PNG, JPEG and GIF signature
strings in that order, then tests the 12-byte RIFF/WEBP shape by exact
hex-string equality. -/
def detectMimeType (readResult : Option (List Nat)) : DetectedFormat :=
  match readResult with
  | none => .unknown
  | some bytes =>
      let header := bytesToHex (bytes.take 4)
      if startsWithL header ("89504E47".toList) then .png
      else if startsWithL header ("FFD8FF".toList) then .jpg
      else if startsWithL header ("47494638".toList) then .gif
      else if bytes.length ≥ 12
          && (bytesToHex (bytes.take 4) == "52494646".toList)
          && (bytesToHex ((bytes.drop 8).take 4) == "57454250".toList) then .webp
      else .unknown

/-- Embedding of `getExtension` (`src/utils/fileSignatures.ts`): split the filename on
`'.'`; a single part means no extension; otherwise the popped last part,
lower-cased (`|| ''` only re-maps the empty string to itself). -/
def getExtension (filename : List Char) : List Char :=
  let parts := splitOnChar '.' filename
  if parts.length = 1 then [] else (parts.getLastD []).map Char.toLower

/-- The `nameWithoutExt` computation of `App.tsx` line 77:
`file.name.substring(0, file.name.lastIndexOf('.')) || file.name`
(the `||` falls back to the whole name when the substring is empty). -/
def nameWithoutExt (name : List Char) : List Char :=
  let t := jsSubstring0 name (jsLastIndexOf '.' name)
  if t = [] then name else t

/-- The last `'/'`-separated segment of a relative path; in the browser this
is exactly `file.name` for `file.webkitRelativePath`. -/
def lastSeg (p : List Char) : List Char :=
  (splitOnChar '/' p).getLastD []

/-- The TS union `'fixed' | 'unchanged' | 'skipped'` of
`ProcessedFile.status` (`src/unnamed/part_000`). -/
inductive FileStatus
  | fixed
  | unchanged
  | skipped
  deriving DecidableEq, Inhabited, Repr

/-- The per-file rename decision of `startProcessing` (`App.tsx` lines
58–93), the spec's Path Policy `decide`: given the relative path and the
detected format, returns `(newName, finalPath, status)`. Mirrors the source:
`currentExt := getExtension(file.name)`; when the detected type is not
`'unknown'` and neither `isMatch` nor `isJpgMatch` holds, the new name is
`nameWithoutExt + '.' + realType` and the path's last segment (index
`pathParts.length - 1`) is replaced by it; otherwise everything is kept. -/
def decideRename (relativePath : List Char) (realType : DetectedFormat) :
    List Char × List Char × FileStatus :=
  let name := lastSeg relativePath
  let currentExt := getExtension name
  if realType ≠ DetectedFormat.unknown then
    let isMatch := currentExt == formatExt realType
    let isJpgMatch := (currentExt == "jpeg".toList && realType == DetectedFormat.jpg)
      || (currentExt == "jpg".toList && realType == DetectedFormat.jpg)
    if !isMatch && !isJpgMatch then
      let newName := nameWithoutExt name ++ '.' :: formatExt realType
      let pathParts := splitOnChar '/' relativePath
      let finalPath := joinChar '/' (pathParts.set (pathParts.length - 1) newName)
      (newName, finalPath, FileStatus.fixed)
    else (name, relativePath, FileStatus.unchanged)
  else (name, relativePath, FileStatus.unchanged)

/-- An input file: the spec's `FileRecord`. `relativePath` is
`file.webkitRelativePath || file.name`, `content` the full byte content,
`readOk` whether the `FileReader` read of the 12-byte slice succeeds. -/
structure FileRecord where
  relativePath : List Char
  content : List Nat
  readOk : Bool
  deriving DecidableEq, Inhabited, Repr

/-- The bytes `detectMimeType` receives for a file: the first 12 bytes
(`file.slice(0, 12)`) on a successful read, `none` on a read failure. -/
def readBytes (f : FileRecord) : Option (List Nat) :=
  if f.readOk then some (f.content.take 12) else none

/-- Embedding of `ProcessedFile` (`src/unnamed/part_000`): the per-file outcome row, the
spec's `ProcessingOutcome`. -/
structure ProcessedFile where
  originalName : List Char
  newName : List Char
  originalPath : List Char
  detectedType : DetectedFormat
  status : FileStatus
  blob : List Nat
  deriving DecidableEq, Inhabited, Repr

/-- Embedding of `ProcessingStats` (`src/unnamed/part_000`): the spec's
`ProcessingSummary`. -/
structure ProcessingStats where
  total : Nat
  fixed : Nat
  processed : Nat
  startTime : Nat
  deriving DecidableEq, Inhabited, Repr

/-- The loop body of `startProcessing` for one file (`App.tsx` lines 50–108):
detect from the 12-byte slice, decide the rename, build the `logEntry`
pushed onto `processedFiles`. -/
def pipelineStep (f : FileRecord) : ProcessedFile :=
  let det := detectMimeType (readBytes f)
  let r := decideRename f.relativePath det
  { originalName := lastSeg f.relativePath
    newName := r.1
    originalPath := f.relativePath
    detectedType := det
    status := r.2.2
    blob := f.content }

/-- The final path a file's content is archived under:
the `zip.file(finalPath, file)` path of `App.tsx` line 97. -/
def finalPathOf (f : FileRecord) : List Char :=
  (decideRename f.relativePath (detectMimeType (readBytes f))).2.1

/-- Everything `startProcessing` accumulates: the `processedFiles` outcome
log, the `(path, content)` pairs handed to JSZip, and the successive
`ProcessingStats` values passed to `setStats` inside the loop. -/
structure RunResult where
  logs : List ProcessedFile
  zipEntries : List (List Char × List Nat)
  statsTrace : List ProcessingStats
  deriving DecidableEq, Inhabited, Repr

/-- The `for` loop of `startProcessing` (`App.tsx` lines 50–118), with the
running `fixedCount` and the number of files already handled (`done`, so the
loop index `i` satisfies `i + 1 = done + 1`) threaded explicitly. Each
iteration appends the log entry, the `zip.file(finalPath, file)` pair, and
the stats value `{ total, fixed := fixedCount, processed := i + 1,
startTime := t }` set by `setStats`. -/
def runFrom (t total : Nat) : List FileRecord → Nat → Nat → RunResult
  | [], _, _ => ⟨[], [], []⟩
  | f :: fs, fixedCount, done =>
      let e := pipelineStep f
      let fc := if e.status = FileStatus.fixed then fixedCount + 1 else fixedCount
      let rest := runFrom t total fs fc (done + 1)
      ⟨e :: rest.logs,
       (finalPathOf f, f.content) :: rest.zipEntries,
       ⟨total, fc, done + 1, t⟩ :: rest.statsTrace⟩

/-- Embedding of `startProcessing` (`App.tsx` lines 35–130) restricted to its pure core:
the whole batch run from the initial `fixedCount = 0`; `t` is the
`Date.now()` value stored as `startTime`. -/
def startProcessing (t : Nat) (files : List FileRecord) : RunResult :=
  runFrom t files.length files 0 0

/-- The stats object set before the loop (`App.tsx` line 37):
`{ total: files.length, fixed: 0, processed: 0, startTime: Date.now() }`. -/
def initialStats (t : Nat) (files : List FileRecord) : ProcessingStats :=
  ⟨files.length, 0, 0, t⟩

/-! ## Lemmas about the string-splitting primitives -/

theorem splitOnChar_ne_nil (c : Char) (s : List Char) : splitOnChar c s ≠ [] := by
  cases s with
  | nil => simp [splitOnChar]
  | cons a as =>
      simp only [splitOnChar]
      split <;> simp

theorem splitOnChar_cons (c a : Char) (as : List Char) :
    splitOnChar c (a :: as) =
      if a = c then [] :: splitOnChar c as
      else (a :: (splitOnChar c as).headD []) :: (splitOnChar c as).tail := rfl

theorem exists_split_cons (c : Char) (s : List Char) :
    ∃ h t, splitOnChar c s = h :: t := by
  cases e : splitOnChar c s with
  | nil => exact absurd e (splitOnChar_ne_nil c s)
  | cons h t => exact ⟨h, t, rfl⟩

theorem joinChar_cons_cons (c a : Char) (h : List Char) (t : List (List Char)) :
    joinChar c ((a :: h) :: t) = a :: joinChar c (h :: t) := by
  cases t <;> simp [joinChar]

theorem join_split (c : Char) (s : List Char) : joinChar c (splitOnChar c s) = s := by
  induction s with
  | nil => rfl
  | cons a as ih =>
      obtain ⟨h, t, hht⟩ := exists_split_cons c as
      rw [splitOnChar_cons, hht]
      by_cases hac : a = c
      · rw [if_pos hac]
        have hj : joinChar c ([] :: h :: t) = c :: joinChar c (h :: t) := rfl
        rw [hj, ← hht, ih, hac]
      · rw [if_neg hac]
        simp only [List.headD, List.tail_cons]
        rw [joinChar_cons_cons, ← hht, ih]

theorem split_eq_single {c : Char} {s : List Char} (h : c ∉ s) :
    splitOnChar c s = [s] := by
  induction s with
  | nil => rfl
  | cons a as ih =>
      have hac : a ≠ c := fun e => h (e ▸ List.mem_cons_self a as)
      have has : c ∉ as := fun e => h (List.mem_cons_of_mem a e)
      rw [splitOnChar_cons, if_neg hac, ih has]
      rfl

theorem split_append (c : Char) (xs ys : List Char) :
    splitOnChar c (xs ++ c :: ys) = splitOnChar c xs ++ splitOnChar c ys := by
  induction xs with
  | nil =>
      rw [List.nil_append, splitOnChar_cons, if_pos rfl]
      rfl
  | cons a as ih =>
      obtain ⟨h, t, hht⟩ := exists_split_cons c as
      rw [List.cons_append, splitOnChar_cons, ih, hht, splitOnChar_cons, hht]
      by_cases hac : a = c
      · rw [if_pos hac, if_pos hac]
        rfl
      · rw [if_neg hac, if_neg hac]
        rfl

theorem not_mem_of_mem_split {c : Char} {s t : List Char}
    (ht : t ∈ splitOnChar c s) : c ∉ t := by
  induction s generalizing t with
  | nil =>
      simp only [splitOnChar, List.mem_singleton] at ht
      subst ht; simp
  | cons a as ih =>
      obtain ⟨h, tl, hht⟩ := exists_split_cons c as
      rw [splitOnChar_cons, hht] at ht
      by_cases hac : a = c
      · rw [if_pos hac] at ht
        rcases List.mem_cons.1 ht with rfl | ht'
        · simp
        · exact ih (hht ▸ ht')
      · rw [if_neg hac] at ht
        simp only [List.headD, List.tail_cons] at ht
        rcases List.mem_cons.1 ht with rfl | ht'
        · intro hmem
          rcases List.mem_cons.1 hmem with rfl | hmem'
          · exact hac rfl
          · exact ih (hht ▸ List.mem_cons_self h tl) hmem'
        · exact ih (hht ▸ List.mem_cons_of_mem h ht')

theorem split_join {c : Char} {l : List (List Char)}
    (hfree : ∀ x ∈ l, c ∉ x) (hne : l ≠ []) :
    splitOnChar c (joinChar c l) = l := by
  induction l with
  | nil => exact absurd rfl hne
  | cons x xs ih =>
      cases xs with
      | nil =>
          show splitOnChar c x = [x]
          exact split_eq_single (hfree x (List.mem_cons_self x []))
      | cons y ys =>
          show splitOnChar c (x ++ c :: joinChar c (y :: ys)) = x :: y :: ys
          rw [split_append, split_eq_single (hfree x (List.mem_cons_self x _)),
            ih (fun z hz => hfree z (List.mem_cons_of_mem x hz)) (by simp)]
          rfl

theorem join_inj {c : Char} {l₁ l₂ : List (List Char)}
    (h₁ : ∀ x ∈ l₁, c ∉ x) (h₂ : ∀ x ∈ l₂, c ∉ x)
    (hn₁ : l₁ ≠ []) (hn₂ : l₂ ≠ []) (h : joinChar c l₁ = joinChar c l₂) :
    l₁ = l₂ := by
  rw [← split_join h₁ hn₁, ← split_join h₂ hn₂, h]

theorem set_last {α : Type} (l : List α) (hl : l ≠ []) (a : α) :
    l.set (l.length - 1) a = l.dropLast ++ [a] := by
  induction l with
  | nil => exact absurd rfl hl
  | cons x xs ih =>
      cases xs with
      | nil => rfl
      | cons y ys =>
          show (x :: y :: ys).set (ys.length + 1) a = _
          rw [List.set_cons_succ]
          have h2 := ih (by simp)
          simp only [List.length_cons, Nat.add_sub_cancel] at h2
          rw [h2]
          rfl

theorem getLastD_mem {α : Type} {l : List α} (hl : l ≠ []) (d : α) :
    l.getLastD d ∈ l := by
  induction l generalizing d with
  | nil => exact absurd rfl hl
  | cons x xs ih =>
      cases xs with
      | nil => simp
      | cons y ys =>
          rw [List.getLastD_cons]
          exact List.mem_cons_of_mem x (ih (by simp) x)

theorem split_decomp (c : Char) (p : List Char) :
    splitOnChar c p = (splitOnChar c p).dropLast ++ [(splitOnChar c p).getLastD []] := by
  obtain ⟨h, t, hht⟩ := exists_split_cons c p
  rw [hht]
  rw [List.getLastD_eq_getLast? ]
  rw [List.getLast?_eq_getLast (h :: t) (by simp), Option.getD_some]
  exact (List.dropLast_concat_getLast (by simp)).symm

/-! ## Lemmas about `jsLastIndexOf` and `nameWithoutExt` -/

theorem jsLastIndexOf_of_not_mem {c : Char} {s : List Char} (h : c ∉ s) :
    jsLastIndexOf c s = -1 := by
  induction s with
  | nil => rfl
  | cons a as ih =>
      have hac : a ≠ c := fun e => h (e ▸ List.mem_cons_self a as)
      have has : c ∉ as := fun e => h (List.mem_cons_of_mem a e)
      simp only [jsLastIndexOf, ih has]
      norm_num
      exact hac

theorem jsLastIndexOf_append_sep {c : Char} (st : List Char) {e : List Char}
    (he : c ∉ e) : jsLastIndexOf c (st ++ c :: e) = (st.length : Int) := by
  induction st with
  | nil =>
      simp only [List.nil_append, jsLastIndexOf, jsLastIndexOf_of_not_mem he]
      norm_num
  | cons a st' ih =>
      rw [List.cons_append]
      have hunf : jsLastIndexOf c (a :: (st' ++ c :: e)) =
          if jsLastIndexOf c (st' ++ c :: e) ≥ 0 then jsLastIndexOf c (st' ++ c :: e) + 1
          else if a = c then 0 else -1 := rfl
      rw [hunf, ih, if_pos (Int.natCast_nonneg _)]
      simp only [List.length_cons]
      omega

theorem exists_last_sep {c : Char} {s : List Char} (h : c ∈ s) :
    ∃ st e, s = st ++ c :: e ∧ c ∉ e := by
  induction s with
  | nil => cases h
  | cons a as ih =>
      by_cases hmem : c ∈ as
      · obtain ⟨st, e, heq, hne⟩ := ih hmem
        exact ⟨a :: st, e, by rw [heq]; rfl, hne⟩
      · have hac : a = c := by
          rcases List.mem_cons.1 h with h' | h'
          · exact h'.symm
          · exact absurd h' hmem
        exact ⟨[], as, by rw [hac]; rfl, hmem⟩

theorem nameWithoutExt_append_ext {s e : List Char} (hs : s ≠ [])
    (he : '.' ∉ e) : nameWithoutExt (s ++ '.' :: e) = s := by
  have hidx := jsLastIndexOf_append_sep s he (c := '.')
  simp only [nameWithoutExt, jsSubstring0, hidx, Int.toNat_natCast,
    List.take_left]
  exact if_neg hs

theorem nameWithoutExt_ne_nil {name : List Char} (h : name ≠ []) :
    nameWithoutExt name ≠ [] := by
  simp only [nameWithoutExt]
  split
  · exact h
  · assumption

theorem nameWithoutExt_of_not_mem {name : List Char} (h : '.' ∉ name) :
    nameWithoutExt name = name := by
  simp only [nameWithoutExt, jsSubstring0, jsLastIndexOf_of_not_mem h]
  rfl

theorem nameWithoutExt_subset (name : List Char) {x : Char}
    (hx : x ∈ nameWithoutExt name) : x ∈ name := by
  simp only [nameWithoutExt, jsSubstring0] at hx
  split at hx
  · exact hx
  · exact List.take_subset _ _ hx

/-! ## Spec-side formulations (for refinement claims)

These definitions follow the words of the spec / claims, to be compared
against the code-derived definitions above. -/

/-- Spec wording: the portion of a path segment before its last `'.'`
(computed here over the `'.'`-split parts, dropping the last part). -/
def segStem (seg : List Char) : List Char :=
  joinChar '.' ((splitOnChar '.' seg).dropLast)

/-- Claim C3's new-name stem, verbatim: "the portion of the last path
segment before its last '.' (the whole segment if it has no '.')". -/
def specStemStrict (seg : List Char) : List Char :=
  if (splitOnChar '.' seg).length = 1 then seg else segStem seg

/-- Claim C3's new file-name: stem concatenated with `'.'` and the detected
format's canonical extension. -/
def specNewNameStrict (seg : List Char) (det : DetectedFormat) : List Char :=
  specStemStrict seg ++ '.' :: formatExt det

/-- The amended stem: as `specStemStrict`, except that when the portion
before the last `'.'` is empty the whole segment is used (the code's
`|| file.name` fallback). -/
def specStem (seg : List Char) : List Char :=
  if specStemStrict seg = [] then seg else specStemStrict seg

/-- The amended new file-name. -/
def specNewName (seg : List Char) (det : DetectedFormat) : List Char :=
  specStem seg ++ '.' :: formatExt det

/-- Spec wording for the extension match: the current extension (lower-cased
substring after the last `'.'` of the last path segment) equals the detected
format's canonical extension, with the `"jpeg"`/JPEG synonym. -/
def extMatches (p : List Char) (det : DetectedFormat) : Prop :=
  getExtension (lastSeg p) = formatExt det ∨
    (getExtension (lastSeg p) = "jpeg".toList ∧ det = DetectedFormat.jpg)

instance (p : List Char) (det : DetectedFormat) : Decidable (extMatches p det) := by
  unfold extMatches
  infer_instance

/-- A path with the extension part of its last segment removed: the
directory segments plus the code's extension-stripped name. Two files whose
stem paths coincide are renamed onto the same final path when their detected
formats coincide. -/
def stemPath (p : List Char) : List Char :=
  joinChar '/' ((splitOnChar '/' p).dropLast ++ [nameWithoutExt (lastSeg p)])

/-! ## The rename decision, characterized -/

theorem stem_eq (seg : List Char) : nameWithoutExt seg = specStem seg := by
  by_cases hdot : '.' ∈ seg
  · obtain ⟨st, e, rfl, he⟩ := exists_last_sep hdot
    have hsplit : splitOnChar '.' (st ++ '.' :: e) = splitOnChar '.' st ++ [e] := by
      rw [split_append, split_eq_single he]
    have hlen : ¬((splitOnChar '.' (st ++ '.' :: e)).length = 1) := by
      rw [hsplit, List.length_append]
      have h0 : (splitOnChar '.' st).length ≠ 0 :=
        fun h => splitOnChar_ne_nil '.' st (List.length_eq_zero.1 h)
      simp only [List.length_singleton]
      omega
    have hstrict : specStemStrict (st ++ '.' :: e) = st := by
      rw [specStemStrict, if_neg hlen, segStem, hsplit, List.dropLast_concat,
        join_split]
    by_cases hst : st = []
    · subst hst
      have hidx := jsLastIndexOf_append_sep [] he (c := '.')
      simp only [specStem, hstrict, if_pos rfl, nameWithoutExt, jsSubstring0,
        hidx]
      rfl
    · rw [nameWithoutExt_append_ext hst he, specStem, hstrict, if_neg hst]
  · have h1 : splitOnChar '.' seg = [seg] := split_eq_single hdot
    have hstrict : specStemStrict seg = seg := by
      rw [specStemStrict, if_pos (by rw [h1]; rfl)]
    rw [nameWithoutExt_of_not_mem hdot, specStem, hstrict]
    split <;> rfl

theorem decideRename_eq (p : List Char) (det : DetectedFormat) :
    decideRename p det =
      if det = DetectedFormat.unknown ∨ extMatches p det
      then (lastSeg p, p, FileStatus.unchanged)
      else (nameWithoutExt (lastSeg p) ++ '.' :: formatExt det,
            joinChar '/' ((splitOnChar '/' p).dropLast
              ++ [nameWithoutExt (lastSeg p) ++ '.' :: formatExt det]),
            FileStatus.fixed) := by
  by_cases hu : det = DetectedFormat.unknown
  · rw [if_pos (Or.inl hu)]
    simp [decideRename, hu]
  · by_cases hm : extMatches p det
    · rw [if_pos (Or.inr hm)]
      have hb : (!(getExtension (lastSeg p) == formatExt det) &&
          !((getExtension (lastSeg p) == "jpeg".toList && det == DetectedFormat.jpg) ||
            (getExtension (lastSeg p) == "jpg".toList && det == DetectedFormat.jpg)))
          = false := by
        rcases hm with hm | ⟨hm1, hm2⟩
        · simp [hm]
        · simp [hm1, hm2]
      rw [decideRename.eq_def, if_pos hu]
      simp only [hb]
      rfl
    · rw [if_neg (fun h => h.elim hu hm)]
      have h1 : getExtension (lastSeg p) ≠ formatExt det := fun h => hm (Or.inl h)
      have h2 : ¬(getExtension (lastSeg p) = "jpeg".toList ∧ det = DetectedFormat.jpg) :=
        fun h => hm (Or.inr h)
      have h3 : ¬(getExtension (lastSeg p) = "jpg".toList ∧ det = DetectedFormat.jpg) := by
        rintro ⟨ha, hb⟩
        subst hb
        exact h1 ha
      have hb : (!(getExtension (lastSeg p) == formatExt det) &&
          !((getExtension (lastSeg p) == "jpeg".toList && det == DetectedFormat.jpg) ||
            (getExtension (lastSeg p) == "jpg".toList && det == DetectedFormat.jpg)))
          = true := by
        cases det <;> simp_all [formatExt]
      rw [decideRename.eq_def, if_pos hu]
      simp only [hb]
      rw [set_last _ (splitOnChar_ne_nil '/' p)]
      simp

theorem decideRename_unknown (p : List Char) :
    decideRename p DetectedFormat.unknown = (lastSeg p, p, FileStatus.unchanged) := by
  rw [decideRename_eq, if_pos (Or.inl rfl)]

theorem decideRename_status (p : List Char) (det : DetectedFormat) :
    (decideRename p det).2.2 = FileStatus.fixed ∨
      (decideRename p det).2.2 = FileStatus.unchanged := by
  rw [decideRename_eq]
  split
  · right; rfl
  · left; rfl

/-! ## Pipeline unfolding lemmas -/

theorem runFrom_logs (t total : Nat) (fs : List FileRecord) (fc done : Nat) :
    (runFrom t total fs fc done).logs = fs.map pipelineStep := by
  induction fs generalizing fc done with
  | nil => rfl
  | cons f fs ih => simp [runFrom, ih]

theorem runFrom_zips (t total : Nat) (fs : List FileRecord) (fc done : Nat) :
    (runFrom t total fs fc done).zipEntries =
      fs.map (fun f => (finalPathOf f, f.content)) := by
  induction fs generalizing fc done with
  | nil => rfl
  | cons f fs ih => simp [runFrom, ih]

theorem runFrom_stats_length (t total : Nat) (fs : List FileRecord) (fc done : Nat) :
    (runFrom t total fs fc done).statsTrace.length = fs.length := by
  induction fs generalizing fc done with
  | nil => rfl
  | cons f fs ih => simp [runFrom, ih]

theorem runFrom_stats_getD (t total : Nat) (fs : List FileRecord) (fc done k : Nat)
    (hk : k < fs.length) :
    (runFrom t total fs fc done).statsTrace.getD k default =
      ⟨total,
       fc + ((fs.take (k + 1)).map pipelineStep).countP
         (fun e => e.status == FileStatus.fixed),
       done + k + 1, t⟩ := by
  induction fs generalizing fc done k with
  | nil => simp at hk
  | cons f fs ih =>
      cases k with
      | zero =>
          by_cases hf : (pipelineStep f).status = FileStatus.fixed
          · simp [runFrom, hf, List.countP_cons]
          · simp [runFrom, hf, List.countP_cons]
      | succ k' =>
          have hk' : k' < fs.length := by simpa using hk
          have hrec := ih (if (pipelineStep f).status = FileStatus.fixed
            then fc + 1 else fc) (done + 1) k' hk'
          simp only [runFrom, List.getD_cons_succ]
          rw [hrec]
          simp only [List.take_succ_cons, List.map_cons, List.countP_cons,
            ProcessingStats.mk.injEq]
          refine ⟨trivial, ?_, by omega, trivial⟩
          by_cases hf : (pipelineStep f).status = FileStatus.fixed
          · simp only [if_pos hf, hf, beq_self_eq_true, if_true]
            omega
          · simp only [if_neg hf]
            have : ((pipelineStep f).status == FileStatus.fixed) = false := by
              simpa using hf
            simp [this]

/-! ## Final-path collision analysis -/

theorem lastSeg_mem (p : List Char) : lastSeg p ∈ splitOnChar '/' p :=
  getLastD_mem (splitOnChar_ne_nil '/' p) []

theorem slash_not_mem_lastSeg (p : List Char) : '/' ∉ lastSeg p :=
  not_mem_of_mem_split (lastSeg_mem p)

theorem formatExt_free (det : DetectedFormat) :
    '.' ∉ formatExt det ∧ '/' ∉ formatExt det := by
  cases det <;> exact ⟨by decide, by decide⟩

theorem fixedSegs_free (p : List Char) (det : DetectedFormat) :
    ∀ x ∈ (splitOnChar '/' p).dropLast
        ++ [nameWithoutExt (lastSeg p) ++ '.' :: formatExt det], '/' ∉ x := by
  intro x hx
  rcases List.mem_append.1 hx with hx | hx
  · exact not_mem_of_mem_split (List.dropLast_subset _ hx)
  · rw [List.mem_singleton] at hx
    subst hx
    intro hmem
    rcases List.mem_append.1 hmem with hm | hm
    · exact slash_not_mem_lastSeg p (nameWithoutExt_subset _ hm)
    · rcases List.mem_cons.1 hm with hm | hm
      · exact absurd hm (by decide)
      · exact (formatExt_free det).2 hm

theorem unchangedSegs_free (p : List Char) :
    ∀ x ∈ (splitOnChar '/' p).dropLast ++ [lastSeg p], '/' ∉ x := by
  intro x hx
  rcases List.mem_append.1 hx with hx | hx
  · exact not_mem_of_mem_split (List.dropLast_subset _ hx)
  · rw [List.mem_singleton] at hx
    subst hx
    exact slash_not_mem_lastSeg p

theorem path_decomp (p : List Char) :
    p = joinChar '/' ((splitOnChar '/' p).dropLast ++ [lastSeg p]) := by
  have h := congrArg (joinChar '/') (split_decomp '/' p)
  rw [join_split] at h
  exact h

theorem mixed_ne {p₁ p₂ : List Char} {d : DetectedFormat}
    (h₁ : lastSeg p₁ ≠ []) (hs : stemPath p₁ ≠ stemPath p₂) :
    joinChar '/' ((splitOnChar '/' p₁).dropLast
      ++ [nameWithoutExt (lastSeg p₁) ++ '.' :: formatExt d]) ≠ p₂ := by
  intro heq
  rw [path_decomp p₂] at heq
  have hlists := join_inj (fixedSegs_free p₁ d) (unchangedSegs_free p₂)
    (by simp) (by simp) heq
  have hsplit := List.append_inj' hlists (by simp)
  have hname : nameWithoutExt (lastSeg p₁) ++ '.' :: formatExt d = lastSeg p₂ := by
    simpa using hsplit.2
  have hstem2 : nameWithoutExt (lastSeg p₂) = nameWithoutExt (lastSeg p₁) := by
    rw [← hname]
    exact nameWithoutExt_append_ext (nameWithoutExt_ne_nil h₁) (formatExt_free d).1
  apply hs
  unfold stemPath
  rw [hsplit.1, hstem2]

theorem fixed_fixed_ne {p₁ p₂ : List Char} {d₁ d₂ : DetectedFormat}
    (h₁ : lastSeg p₁ ≠ []) (h₂ : lastSeg p₂ ≠ [])
    (hs : stemPath p₁ ≠ stemPath p₂) :
    joinChar '/' ((splitOnChar '/' p₁).dropLast
      ++ [nameWithoutExt (lastSeg p₁) ++ '.' :: formatExt d₁]) ≠
    joinChar '/' ((splitOnChar '/' p₂).dropLast
      ++ [nameWithoutExt (lastSeg p₂) ++ '.' :: formatExt d₂]) := by
  intro heq
  have hlists := join_inj (fixedSegs_free p₁ d₁) (fixedSegs_free p₂ d₂)
    (by simp) (by simp) heq
  have hsplit := List.append_inj' hlists (by simp)
  have hnames : nameWithoutExt (lastSeg p₁) ++ '.' :: formatExt d₁ =
      nameWithoutExt (lastSeg p₂) ++ '.' :: formatExt d₂ := by
    simpa using hsplit.2
  have hstem : nameWithoutExt (lastSeg p₁) = nameWithoutExt (lastSeg p₂) := by
    have ha := nameWithoutExt_append_ext (nameWithoutExt_ne_nil h₁) (formatExt_free d₁).1
    have hb := nameWithoutExt_append_ext (nameWithoutExt_ne_nil h₂) (formatExt_free d₂).1
    rw [← ha, hnames, hb]
  apply hs
  unfold stemPath
  rw [hsplit.1, hstem]

theorem finalPath_ne {p₁ p₂ : List Char} {d₁ d₂ : DetectedFormat}
    (h₁ : lastSeg p₁ ≠ []) (h₂ : lastSeg p₂ ≠ [])
    (hp : p₁ ≠ p₂) (hs : stemPath p₁ ≠ stemPath p₂) :
    (decideRename p₁ d₁).2.1 ≠ (decideRename p₂ d₂).2.1 := by
  rw [decideRename_eq, decideRename_eq]
  split
  · split
    · exact hp
    · exact fun h => mixed_ne h₂ (Ne.symm hs) h.symm
  · split
    · exact mixed_ne h₁ hs
    · exact fixed_fixed_ne h₁ h₂ hs

/-! ## Concrete fixtures (from the spec's testable properties, §8) -/

/-- A real PNG header: `89 50 4E 47 0D 0A 1A 0A`. -/
def pngBytes : List Nat := [0x89, 0x50, 0x4E, 0x47, 0x0D, 0x0A, 0x1A, 0x0A]

/-- A real GIF header: `47 49 46 38 39 61` (`GIF89a`). -/
def gifBytes : List Nat := [0x47, 0x49, 0x46, 0x38, 0x39, 0x61]

/-- Unrecognizable bytes: `00 01 02 03`. -/
def rawBytes : List Nat := [0x00, 0x01, 0x02, 0x03]

/-- The spec's end-to-end example batch: `a.png` (real PNG), `b.jpg`
(really a GIF), `c.dat` (unrecognized bytes). -/
def exampleFiles : List FileRecord :=
  [⟨"a.png".toList, pngBytes, true⟩,
   ⟨"b.jpg".toList, gifBytes, true⟩,
   ⟨"c.dat".toList, rawBytes, true⟩]

/-- Two distinct paths that rename onto the same final path: both files are
really GIFs, so both become `a.gif`. -/
def collideFiles : List FileRecord :=
  [⟨"a.png".toList, gifBytes, true⟩,
   ⟨"a.jpg".toList, gifBytes, true⟩]

/-- A batch whose second file's prefix read fails. -/
def failFiles : List FileRecord :=
  [⟨"a.png".toList, pngBytes, true⟩,
   ⟨"broken.bin".toList, [1, 2, 3], false⟩]

/-! ## Claim theorems -/

/-- C1: the detector does NOT implement the spec's rule set exactly. The
claim says no prefix whose first three bytes differ from `FF D8 FF` is ever
classified JPEG, but the code builds the comparison header from unpadded
per-byte hex (`toString(16)` without zero padding), so the prefix
`FF D8 0F F0` yields header `"FFD8FF0"` and is classified JPEG even though
its third byte is `0F`. The code's own comment documents the intended
signature `FF D8 FF`, so this is a bug in the code. -/
theorem c1_jpeg_false_positive :
    detectMimeType (some [0xFF, 0xD8, 0x0F, 0xF0]) = DetectedFormat.jpg ∧
    [0xFF, 0xD8, 0x0F, 0xF0].take 3 ≠ [0xFF, 0xD8, 0xFF] := by decide

/-- C5: the detector is total in the sense that it always returns a value,
but the claim that every prefix shorter than 12 bytes not matching the
PNG/JPEG/GIF signatures yields UNKNOWN is false: the 4-byte prefix
`0F 0F D8 FF` (first three bytes not `FF D8 FF`) produces the unpadded hex
header `"FFD8FF"` and is classified JPEG. Same root cause as C1. -/
theorem c5_short_prefix_misdetect :
    detectMimeType (some [0x0F, 0x0F, 0xD8, 0xFF]) = DetectedFormat.jpg ∧
    ([0x0F, 0x0F, 0xD8, 0xFF] : List Nat).length < 12 ∧
    [0x0F, 0x0F, 0xD8, 0xFF].take 3 ≠ [0xFF, 0xD8, 0xFF] := by decide

/-- C2, counterexample: pairwise-distinct input paths do NOT guarantee
pairwise-distinct final archive paths. `a.png` and `a.jpg`, both containing
real GIF data, are renamed onto the same final path `a.gif`. -/
theorem c2_counterexample :
    collideFiles.Pairwise (fun a b => a.relativePath ≠ b.relativePath) ∧
    ¬ ((startProcessing 0 collideFiles).zipEntries.map Prod.fst).Pairwise
        (· ≠ ·) := by decide

/-- C2 (amended): if the relative paths are pairwise distinct, every last
path segment is nonempty, and the stem paths (directory prefix plus the
extension-stripped last segment) are also pairwise distinct, then the final
paths fed to the archive step are pairwise distinct. -/
theorem c2_final_paths_unique (t : Nat) (files : List FileRecord)
    (hseg : ∀ f ∈ files, lastSeg f.relativePath ≠ [])
    (hpaths : files.Pairwise (fun a b => a.relativePath ≠ b.relativePath))
    (hstems : files.Pairwise
      (fun a b => stemPath a.relativePath ≠ stemPath b.relativePath)) :
    ((startProcessing t files).zipEntries.map Prod.fst).Pairwise (· ≠ ·) := by
  rw [startProcessing, runFrom_zips, List.map_map]
  have hcomp : (Prod.fst ∘ fun f : FileRecord => (finalPathOf f, f.content))
      = finalPathOf := rfl
  rw [hcomp, List.pairwise_map]
  exact (hpaths.and hstems).imp_of_mem
    (fun {a b} ha hb hr => finalPath_ne (hseg a ha) (hseg b hb) hr.1 hr.2)

/-- Witness for C2's amended theorem at the spec's example batch. -/
theorem c2_witness :
    ((startProcessing 0 exampleFiles).zipEntries.map Prod.fst).Pairwise
      (· ≠ ·) :=
  c2_final_paths_unique 0 exampleFiles (by decide) (by decide) (by decide)

/-- C3, counterexample: for `".abc"` detected PNG the claim's formula gives
`""` + `".png"` = `".png"`, but the code's `|| file.name` fallback yields
`".abc.png"`; the claim's hypotheses hold (PNG is not UNKNOWN and the
extension `"abc"` does not match), yet the final path differs from the
claimed one. -/
theorem c3_counterexample :
    DetectedFormat.png ≠ DetectedFormat.unknown ∧
    ¬ extMatches (".abc".toList) DetectedFormat.png ∧
    (decideRename (".abc".toList) DetectedFormat.png).2.2 = FileStatus.fixed ∧
    (decideRename (".abc".toList) DetectedFormat.png).2.1 ≠
      joinChar '/' ((splitOnChar '/' (".abc".toList)).dropLast
        ++ [specNewNameStrict (lastSeg (".abc".toList)) DetectedFormat.png]) := by
  decide

/-- C3 (amended): for every path and detected format other than UNKNOWN
whose canonical extension does not match the current extension (with the
jpeg synonym), the decision is FIXED and the final path replaces only the
last segment with the stem — the portion before the last `'.'`, the whole
segment if it has no `'.'` or if that portion is empty — concatenated with
`'.'` and the canonical extension; all directory segments are preserved. -/
theorem c3_fixed_path (p : List Char) (det : DetectedFormat)
    (hdet : det ≠ DetectedFormat.unknown) (hmm : ¬ extMatches p det) :
    (decideRename p det).2.2 = FileStatus.fixed ∧
    (decideRename p det).2.1 =
      joinChar '/' ((splitOnChar '/' p).dropLast
        ++ [specNewName (lastSeg p) det]) := by
  rw [decideRename_eq, if_neg (fun h => h.elim hdet hmm)]
  refine ⟨rfl, ?_⟩
  simp only [specNewName, ← stem_eq]

/-- Witness for C3's amended theorem at the spec's directory-preservation
example: `album/sub/pic.png` detected GIF becomes `album/sub/pic.gif`. -/
theorem c3_witness :
    ((decideRename ("album/sub/pic.png".toList) DetectedFormat.gif).2.2
        = FileStatus.fixed ∧
      (decideRename ("album/sub/pic.png".toList) DetectedFormat.gif).2.1 =
        joinChar '/' ((splitOnChar '/' ("album/sub/pic.png".toList)).dropLast
          ++ [specNewName (lastSeg ("album/sub/pic.png".toList))
                DetectedFormat.gif])) ∧
    (decideRename ("album/sub/pic.png".toList) DetectedFormat.gif).2.1 =
      "album/sub/pic.gif".toList :=
  ⟨c3_fixed_path _ _ (by decide) (by decide), by decide⟩

/-- C4: the decision is UNCHANGED with the final path equal to the original
path exactly when the detected format is UNKNOWN or the current extension
matches the detected format's canonical extension (with the `"jpeg"`/JPEG
synonym). -/
theorem c4_unchanged_iff (p : List Char) (det : DetectedFormat) :
    ((decideRename p det).2.2 = FileStatus.unchanged ∧
      (decideRename p det).2.1 = p) ↔
      (det = DetectedFormat.unknown ∨ extMatches p det) := by
  rw [decideRename_eq]
  by_cases h : det = DetectedFormat.unknown ∨ extMatches p det
  · rw [if_pos h]
    exact iff_of_true ⟨rfl, rfl⟩ h
  · rw [if_neg h]
    refine iff_of_false ?_ h
    rintro ⟨hst, -⟩
    exact FileStatus.noConfusion hst

theorem pipelineStep_read_fail {f : FileRecord} (h : f.readOk = false) :
    pipelineStep f = ⟨lastSeg f.relativePath, lastSeg f.relativePath,
      f.relativePath, DetectedFormat.unknown, FileStatus.unchanged,
      f.content⟩ := by
  have hrb : readBytes f = none := by simp [readBytes, h]
  simp [pipelineStep, hrb, decideRename_unknown, detectMimeType]

theorem finalPathOf_read_fail {f : FileRecord} (h : f.readOk = false) :
    finalPathOf f = f.relativePath := by
  have hrb : readBytes f = none := by simp [readBytes, h]
  simp [finalPathOf, hrb, decideRename_unknown, detectMimeType]

/-- C6: a failed prefix read does not abort the batch: the failing file's
outcome records detected UNKNOWN and status UNCHANGED, its content is still
archived under its original path, and every file of the batch still
produces its log and archive entries. -/
theorem c6_read_failure_degrades (t : Nat) (files : List FileRecord) (i : Nat)
    (hi : i < files.length) (hfail : (files.getD i default).readOk = false) :
    (startProcessing t files).logs.length = files.length ∧
    (startProcessing t files).zipEntries.length = files.length ∧
    ((startProcessing t files).logs.getD i default).detectedType
      = DetectedFormat.unknown ∧
    ((startProcessing t files).logs.getD i default).status
      = FileStatus.unchanged ∧
    ((startProcessing t files).logs.getD i default).originalPath
      = (files.getD i default).relativePath ∧
    (startProcessing t files).zipEntries.getD i default
      = ((files.getD i default).relativePath, (files.getD i default).content) := by
  rw [startProcessing, runFrom_logs, runFrom_zips]
  have hlog : (files.map pipelineStep).getD i default
      = pipelineStep (files.getD i default) := by
    rw [List.getD_eq_getElem _ _ (by simpa using hi), List.getElem_map,
      List.getD_eq_getElem _ _ hi]
  have hzip : (files.map (fun f => (finalPathOf f, f.content))).getD i default
      = (finalPathOf (files.getD i default),
         (files.getD i default).content) := by
    rw [List.getD_eq_getElem _ _ (by simpa using hi), List.getElem_map,
      List.getD_eq_getElem _ _ hi]
  refine ⟨by simp, by simp, ?_, ?_, ?_, ?_⟩
  · rw [hlog, pipelineStep_read_fail hfail]
  · rw [hlog, pipelineStep_read_fail hfail]
  · rw [hlog, pipelineStep_read_fail hfail]
  · rw [hzip, finalPathOf_read_fail hfail]

/-- Witness for C6 at a concrete batch whose second read fails. -/
theorem c6_witness :
    ((startProcessing 0 failFiles).logs.getD 1 default).status
        = FileStatus.unchanged ∧
    ((startProcessing 0 failFiles).logs.getD 1 default).detectedType
        = DetectedFormat.unknown :=
  ⟨(c6_read_failure_degrades 0 failFiles 1 (by decide) (by decide)).2.2.2.1,
   (c6_read_failure_degrades 0 failFiles 1 (by decide) (by decide)).2.2.1⟩

/-- C7: the summary counters: total is the batch size from the start,
processed after the (k+1)-st file equals k+1, fixed equals the number of
FIXED outcomes among the first k+1 files, `fixed ≤ processed ≤ total`, and
the counters never decrease along the trace. -/
theorem c7_stats_counters (t : Nat) (files : List FileRecord) (k : Nat)
    (hk : k < files.length) :
    initialStats t files = ⟨files.length, 0, 0, t⟩ ∧
    (startProcessing t files).statsTrace.length = files.length ∧
    ((startProcessing t files).statsTrace.getD k default).total
      = files.length ∧
    ((startProcessing t files).statsTrace.getD k default).processed = k + 1 ∧
    ((startProcessing t files).statsTrace.getD k default).fixed =
      ((files.take (k + 1)).map pipelineStep).countP
        (fun e => e.status == FileStatus.fixed) ∧
    ((startProcessing t files).statsTrace.getD k default).fixed ≤
      ((startProcessing t files).statsTrace.getD k default).processed ∧
    ((startProcessing t files).statsTrace.getD k default).processed ≤
      ((startProcessing t files).statsTrace.getD k default).total ∧
    (∀ j, j ≤ k →
      ((startProcessing t files).statsTrace.getD j default).fixed ≤
        ((startProcessing t files).statsTrace.getD k default).fixed ∧
      ((startProcessing t files).statsTrace.getD j default).processed ≤
        ((startProcessing t files).statsTrace.getD k default).processed ∧
      ((startProcessing t files).statsTrace.getD j default).total =
        ((startProcessing t files).statsTrace.getD k default).total) := by
  have hmono : ∀ m n : Nat, m ≤ n →
      ((files.take m).map pipelineStep).countP
          (fun e => e.status == FileStatus.fixed) ≤
        ((files.take n).map pipelineStep).countP
          (fun e => e.status == FileStatus.fixed) := by
    intro m n hmn
    rw [List.map_take, List.map_take]
    have hsub : List.Sublist ((files.map pipelineStep).take m)
        ((files.map pipelineStep).take n) := by
      have heq : (files.map pipelineStep).take m
          = ((files.map pipelineStep).take n).take m := by
        rw [List.take_take, Nat.min_eq_left hmn]
      rw [heq]
      exact List.take_sublist _ _
    exact hsub.countP_le _
  have hcount_le : ∀ m : Nat, m ≤ files.length →
      ((files.take m).map pipelineStep).countP
          (fun e => e.status == FileStatus.fixed) ≤ m := by
    intro m hm
    have h1 : ((files.take m).map pipelineStep).countP
        (fun e => e.status == FileStatus.fixed)
        ≤ ((files.take m).map pipelineStep).length := List.countP_le_length _
    have h2 : ((files.take m).map pipelineStep).length = m := by
      rw [List.length_map, List.length_take, Nat.min_eq_left hm]
    omega
  rw [startProcessing]
  have hget := runFrom_stats_getD t files.length files 0 0
  refine ⟨rfl, runFrom_stats_length _ _ _ _ _, ?_, ?_, ?_, ?_, ?_, ?_⟩
  · rw [hget k hk]
  · rw [hget k hk]
    dsimp only
    omega
  · rw [hget k hk]
    dsimp only
    omega
  · rw [hget k hk]
    dsimp only
    have := hcount_le (k + 1) hk
    omega
  · rw [hget k hk]
    dsimp only
    omega
  · intro j hj
    have hjlen : j < files.length := lt_of_le_of_lt hj hk
    rw [hget j hjlen, hget k hk]
    dsimp only
    refine ⟨?_, by omega, rfl⟩
    have := hmono (j + 1) (k + 1) (by omega)
    omega

/-- Witness for C7 at the spec's example batch: total 3, processed 3,
fixed 1 after the last file. -/
theorem c7_witness :
    ((startProcessing 0 exampleFiles).statsTrace.getD 2 default).processed
        = 3 ∧
    ((startProcessing 0 exampleFiles).statsTrace.getD 2 default).total = 3 ∧
    ((startProcessing 0 exampleFiles).statsTrace.getD 2 default).fixed = 1 := by
  have h := c7_stats_counters 0 exampleFiles 2 (by decide)
  refine ⟨h.2.2.2.1, ?_, ?_⟩
  · rw [h.2.2.1]
    rfl
  · rw [h.2.2.2.2.1]
    decide

/-- C8: the pipeline produces exactly one outcome row and one archive entry
per input file, in input order, and each archive entry carries the file's
full original content unmodified. -/
theorem c8_one_entry_per_file (t : Nat) (files : List FileRecord) :
    (startProcessing t files).logs = files.map pipelineStep ∧
    (startProcessing t files).zipEntries =
      files.map (fun f => (finalPathOf f, f.content)) :=
  ⟨runFrom_logs t files.length files 0 0, runFrom_zips t files.length files 0 0⟩

/-- C9: two runs on the same input (differing only in the ambient timestamp,
the pipeline's sole impure input) produce identical outcome sequences and
identical archive entry sequences (paths and contents). -/
theorem c9_deterministic (t₁ t₂ : Nat) (files : List FileRecord) :
    (startProcessing t₁ files).logs = (startProcessing t₂ files).logs ∧
    (startProcessing t₁ files).zipEntries
      = (startProcessing t₂ files).zipEntries := by
  rw [startProcessing, startProcessing, runFrom_logs, runFrom_logs,
    runFrom_zips, runFrom_zips]
  exact ⟨rfl, rfl⟩

/-- C10: every outcome status the pipeline produces is FIXED or UNCHANGED;
the SKIPPED member of the status type is never produced. -/
theorem c10_no_skipped (t : Nat) (files : List FileRecord) (e : ProcessedFile)
    (he : e ∈ (startProcessing t files).logs) :
    e.status ≠ FileStatus.skipped ∧
      (e.status = FileStatus.fixed ∨ e.status = FileStatus.unchanged) := by
  rw [startProcessing, runFrom_logs] at he
  obtain ⟨f, -, rfl⟩ := List.mem_map.1 he
  have hst : (pipelineStep f).status
      = (decideRename f.relativePath (detectMimeType (readBytes f))).2.2 := rfl
  have h := decideRename_status f.relativePath (detectMimeType (readBytes f))
  constructor
  · rw [hst]
    rcases h with h | h <;> rw [h] <;> decide
  · rw [hst]
    exact h

/-- Witness for C10 at a singleton batch. -/
theorem c10_witness :
    (pipelineStep ⟨"a.png".toList, pngBytes, true⟩).status
        ≠ FileStatus.skipped ∧
      ((pipelineStep ⟨"a.png".toList, pngBytes, true⟩).status
          = FileStatus.fixed ∨
        (pipelineStep ⟨"a.png".toList, pngBytes, true⟩).status
          = FileStatus.unchanged) :=
  c10_no_skipped 0 [⟨"a.png".toList, pngBytes, true⟩] _ (by decide)

end PicFix
